import Mathlib

/-!
Verification of the pattern-matching engine in `src/shrx.rs` of the httpcam
repository (a glob-like compiler `Pattern::new` and a recursive backtracking
evaluator `Pattern::check`).

The embedding works on byte strings represented as `List Nat` (every byte of a
Rust `&str` or `&[u8]` is a `Nat`; all values arising from real inputs are
< 256, and the code performs no wrapping arithmetic on them).  Fallible Rust
code is modelled with explicit result types:

* `PRes α` is `Ok`/`Err(ParseError)` plus a third outcome `panicked` that
  models a Rust panic (an out-of-bounds slice or index).  Reads of `re[i]`
  and slices `s[a..b]` are modelled by `byteGet`/`sliceGet`, which return
  `none` exactly when the corresponding Rust expression would panic.
* The three source loops whose index jumps forward by a computed amount
  (`char_in_impl`'s binary-search loop, the bracket-item loop and the
  `Pattern::new` loop) are written with an explicit fuel argument so that the
  whole development is computable by the kernel.  In the source each of these
  loops strictly increases its index (or strictly shrinks `r - l`) on every
  iteration, so the fuel chosen at every call site (`set.length`,
  `re.length + 1`) can never run out; where a theorem depends on this, it is
  proved (e.g. `charInLoop` never exhausts its fuel when started as
  `char_in_impl` starts it).  Fuel exhaustion is mapped to the panic outcome,
  which therefore never occurs.
* `String::from_utf8_lossy` (used by the evaluator when it stores a captured
  span in a `String`) is modelled by `utf8Lossy`, following the documented
  behaviour of Rust's UTF-8 validation: each maximal subpart of an ill-formed
  subsequence, and a trailing incomplete sequence, is replaced by one
  U+FFFD (bytes EF BF BD); valid sequences are copied unchanged.
-/

namespace Shrx

/-- The `Matcher` enum of `src/shrx.rs`. -/
inductive Matcher where
  | Literal (v : List Nat)
  | AnyChar
  | CharIn (v : List Nat)
  | CharNotIn (v : List Nat)
  | AnyString
deriving DecidableEq

/-- The `Pattern` struct of `src/shrx.rs`. -/
structure Pattern where
  pattern : List Matcher
deriving DecidableEq

/-- Result of a fallible Rust function: `Ok`, `Err(ParseError{msg})`, or a
panic (`panicked` models an out-of-bounds index/slice, which aborts instead of
returning). -/
inductive PRes (α : Type) where
  | ok (a : α)
  | err (msg : String)
  | panicked
deriving DecidableEq

/-- Rust `s[i]` on a slice: the byte at index `i`, or `none` when the access
would panic (index out of bounds). -/
def byteGet : List Nat → Nat → Option Nat
  | [], _ => none
  | c :: _, 0 => some c
  | _ :: t, n + 1 => byteGet t n

/-- Rust `&s[a..b]`: the subslice, or `none` when the range is invalid
(`a > b` or `b > s.len()`), in which case Rust panics. -/
def sliceGet (s : List Nat) (a b : Nat) : Option (List Nat) :=
  if a ≤ b ∧ b ≤ s.length then some ((s.drop a).take (b - a)) else none

/-- The three replacement-character bytes (UTF-8 encoding of U+FFFD). -/
def rep : List Nat := [239, 191, 189]

/-- Is `b` a UTF-8 continuation byte (`0x80..=0xBF`)? -/
def isCont (b : Nat) : Bool := decide (128 ≤ b ∧ b ≤ 191)

/-- Valid (first, second) byte combinations of a 3-byte UTF-8 sequence. -/
def valid3 (b0 b1 : Nat) : Bool :=
  decide ((b0 = 224 ∧ 160 ≤ b1 ∧ b1 ≤ 191) ∨
          (225 ≤ b0 ∧ b0 ≤ 236 ∧ 128 ≤ b1 ∧ b1 ≤ 191) ∨
          (b0 = 237 ∧ 128 ≤ b1 ∧ b1 ≤ 159) ∨
          (238 ≤ b0 ∧ b0 ≤ 239 ∧ 128 ≤ b1 ∧ b1 ≤ 191))

/-- Valid (first, second) byte combinations of a 4-byte UTF-8 sequence. -/
def valid4 (b0 b1 : Nat) : Bool :=
  decide ((b0 = 240 ∧ 144 ≤ b1 ∧ b1 ≤ 191) ∨
          (241 ≤ b0 ∧ b0 ≤ 243 ∧ 128 ≤ b1 ∧ b1 ≤ 191) ∨
          (b0 = 244 ∧ 128 ≤ b1 ∧ b1 ≤ 143))

/-- Worker for `utf8Lossy`.  Every step consumes at least one byte (a decoded
sequence of 1–4 bytes, or an ill-formed subpart of 1–4 bytes replaced by one
U+FFFD), so with fuel `l.length` — as passed by `utf8Lossy` — the fuel can
never run out (exhaustion returns `[]`, which is unreachable from the entry
point).  The skip distances mirror Rust's `Utf8Error::error_len`: 1 when the
leading byte or the second byte of the sequence is invalid, otherwise the
number of bytes that formed a valid prefix before the offending byte; a
trailing incomplete sequence also becomes one U+FFFD. -/
def utf8LossyGo : List Nat → Nat → List Nat
  | _, 0 => []
  | [], _ + 1 => []
  | b0 :: t0, fuel + 1 =>
    if b0 ≤ 127 then b0 :: utf8LossyGo t0 fuel
    else if 194 ≤ b0 ∧ b0 ≤ 223 then
      match t0 with
      | [] => rep
      | b1 :: t1 =>
        if isCont b1 then b0 :: b1 :: utf8LossyGo t1 fuel
        else rep ++ utf8LossyGo t0 fuel
    else if 224 ≤ b0 ∧ b0 ≤ 239 then
      match t0 with
      | [] => rep
      | b1 :: t1 =>
        if valid3 b0 b1 then
          match t1 with
          | [] => rep
          | b2 :: t2 =>
            if isCont b2 then b0 :: b1 :: b2 :: utf8LossyGo t2 fuel
            else rep ++ utf8LossyGo t1 fuel
        else rep ++ utf8LossyGo t0 fuel
    else if 240 ≤ b0 ∧ b0 ≤ 244 then
      match t0 with
      | [] => rep
      | b1 :: t1 =>
        if valid4 b0 b1 then
          match t1 with
          | [] => rep
          | b2 :: t2 =>
            if isCont b2 then
              match t2 with
              | [] => rep
              | b3 :: t3 =>
                if isCont b3 then b0 :: b1 :: b2 :: b3 :: utf8LossyGo t3 fuel
                else rep ++ utf8LossyGo t2 fuel
            else rep ++ utf8LossyGo t1 fuel
        else rep ++ utf8LossyGo t0 fuel
    else rep ++ utf8LossyGo t0 fuel

/-- Model of `String::from_utf8_lossy` on a byte sequence, as a byte sequence: valid
UTF-8 sequences are copied unchanged; each maximal ill-formed subpart (and a
trailing incomplete sequence) becomes one U+FFFD. -/
def utf8Lossy (l : List Nat) : List Nat := utf8LossyGo l l.length

/-- The binary-search loop of `char_in_impl` (src/shrx.rs:196-206), state
`(l, r)`.  Each iteration strictly shrinks `r - l`, so the loop runs at most
`r - l` times; the explicit fuel bounds the iteration count and is chosen at
the call site so that it cannot run out (`charIn` passes `set.length`).
`none` models a panic: an out-of-bounds `set[m]`/`set[l]` or fuel exhaustion
(both are proved unreachable from `charIn`). -/
def charInLoop (set : List Nat) (c : Nat) : Nat → Nat → Nat → Option Bool
  | _, _, 0 => none
  | l, r, fuel + 1 =>
    if l + 1 < r then
      match byteGet set (l + (r - l) / 2) with
      | none => none
      | some sm =>
        if sm = c then some true
        else if sm < c then charInLoop set c (l + (r - l) / 2) r fuel
        else charInLoop set c l (l + (r - l) / 2) fuel
    else
      match byteGet set l with
      | none => none
      | some sl => some (decide (sl = c))

/-- Model of `char_in_impl` (src/shrx.rs:188-209): `l = 0`, `r = set.len()`, early
`false` on the empty set, then the binary-search loop. -/
def charIn (set : List Nat) (c : Nat) : Option Bool :=
  if set.length = 0 then some false
  else charInLoop set c 0 set.length set.length

/-- Model of `Pattern::check_one_char_impl` (src/shrx.rs:175-185): match the rest of
the pattern at `pos + 1`; on success push the lossy decoding of
`s[pos..pos+1]` onto the group vector. -/
def checkOneChar (next : Nat → PRes (Option (List (List Nat)))) (s : List Nat)
    (pos : Nat) : PRes (Option (List (List Nat))) :=
  match next (pos + 1) with
  | .ok (some tail) =>
    match sliceGet s pos (pos + 1) with
    | none => .panicked
    | some u => .ok (some (tail ++ [utf8Lossy u]))
  | .ok none => .ok none
  | .err m => .err m
  | .panicked => .panicked

/-- The `AnyString` candidate loop of `check_impl` (src/shrx.rs:155-168):
`while p < s.len()` try the rest of the pattern at `p`; on success push the
lossy decoding of `s[pos..p]`; otherwise `p += 1`.  The loop guard
`p < s.len()` is represented structurally by the list argument, which at every
call equals `s.drop p` (it is `s.drop pos` at the call in `checkImpl`, and
each step moves from `s.drop p` to its tail `s.drop (p + 1)`); it is empty
exactly when `p ≥ s.len()` and the loop falls through to `None`. -/
def starLoop (next : Nat → PRes (Option (List (List Nat)))) (s : List Nat)
    (pos : Nat) : Nat → List Nat → PRes (Option (List (List Nat)))
  | _, [] => .ok none
  | p, _ :: remTail =>
    match next p with
    | .ok (some m) =>
      match sliceGet s pos p with
      | none => .panicked
      | some u => .ok (some (m ++ [utf8Lossy u]))
    | .ok none => starLoop next s pos (p + 1) remTail
    | .err msg => .err msg
    | .panicked => .panicked

/-- Model of `Pattern::check_impl` (src/shrx.rs:125-173).  The element sequence is
consumed structurally (the source indexes `self.pattern[rule_idx]` after the
guard `rule_idx >= self.pattern.len()`, which is the same case split).
`.ok none` is Rust's `None` (no match), `.ok (some g)` is `Some(CheckResult)`
with `g` the `groups` vector in its internal (push) order. -/
def checkImpl (s : List Nat) : List Matcher → Nat → PRes (Option (List (List Nat)))
  | [], pos => .ok (if pos = s.length then some [] else none)
  | .Literal v :: rest, pos =>
    if pos + v.length ≤ s.length then
      match sliceGet s pos (pos + v.length) with
      | none => .panicked
      | some w =>
        if w = v then checkImpl s rest (pos + v.length) else .ok none
    else .ok none
  | .AnyChar :: rest, pos =>
    if pos < s.length then checkOneChar (fun p => checkImpl s rest p) s pos
    else .ok none
  | .CharIn v :: rest, pos =>
    if pos < s.length then
      match byteGet s pos with
      | none => .panicked
      | some c =>
        match charIn v c with
        | none => .panicked
        | some b =>
          if b then checkOneChar (fun p => checkImpl s rest p) s pos
          else .ok none
    else .ok none
  | .CharNotIn v :: rest, pos =>
    if pos < s.length then
      match byteGet s pos with
      | none => .panicked
      | some c =>
        match charIn v c with
        | none => .panicked
        | some b =>
          if b then .ok none
          else checkOneChar (fun p => checkImpl s rest p) s pos
    else .ok none
  | .AnyString :: rest, pos => starLoop (fun p => checkImpl s rest p) s pos pos (s.drop pos)

/-- Model of `Pattern::check` (src/shrx.rs:119-123): run `check_impl` from position 0
and element 0. -/
def check (p : Pattern) (s : List Nat) : PRes (Option (List (List Nat))) :=
  checkImpl s p.pattern 0

/-- List indexing for the group vector (same shape as `byteGet`). -/
def byteGroupsGet : List (List Nat) → Nat → Option (List Nat)
  | [], _ => none
  | c :: _, 0 => some c
  | _ :: t, n + 1 => byteGroupsGet t n

/-- Model of `CheckResult::group` (src/shrx.rs:91-93):
`&self.groups[self.groups.len() - 1 - idx]`.  `none` models the panic that the
`usize` arithmetic / indexing raises when `idx ≥ groups.len()`; otherwise the
subtraction agrees with truncated `Nat` subtraction. -/
def groupGet (groups : List (List Nat)) (idx : Nat) : Option (List Nat) :=
  if 1 + idx ≤ groups.length then byteGroupsGet groups (groups.length - 1 - idx)
  else none

/-- Model of `check_index` (src/shrx.rs:219-225). -/
def checkIndex (re : List Nat) (idx : Nat) : PRes Unit :=
  if re.length ≤ idx then .err "Unexpected end of string" else .ok ()

/-- Model of `is_special` (src/shrx.rs:317-319): `*`, `?`, `[`, `\`. -/
def isSpecial (c : Nat) : Bool := decide (c = 42 ∨ c = 63 ∨ c = 91 ∨ c = 92)

/-- The scan `while end < re.len() && !is_special(re[end])` of the literal arm
of `parse_matcher` (src/shrx.rs:277-279); the list argument is the suffix
`re.drop e`, so it is empty exactly when `e ≥ re.len()`. -/
def litEndGo : List Nat → Nat → Nat
  | [], e => e
  | c :: rest, e => if isSpecial c then e else litEndGo rest (e + 1)

/-- The byte range `begin..end + 1` pushed by the bracket loop
(src/shrx.rs:251-253): the bytes from `b` to `e` inclusive, empty when
`e < b`. -/
def rangeList (b e : Nat) : List Nat :=
  (List.range (e + 1 - b)).map (fun k => b + k)

/-- Insert into a sorted list, keeping order. -/
def insertSorted (x : Nat) : List Nat → List Nat
  | [] => [x]
  | y :: rest => if x ≤ y then x :: y :: rest else y :: insertSorted x rest

/-- Model of `set.sort()` (src/shrx.rs:258).  For `Nat` the sorted permutation of a
list is unique, so any correct sort (Rust uses a stable mergesort) computes
this function; insertion sort is used so the definition is structural. -/
def sortBytes : List Nat → List Nat
  | [] => []
  | x :: rest => insertSorted x (sortBytes rest)

/-- The dedup loop of `parse_matcher` (src/shrx.rs:261-267): `prev` starts at
`0`, and an element is kept only when it differs from `prev`.  (Hence a
leading byte 0 of the sorted list is dropped.) -/
def dedupFrom : Nat → List Nat → List Nat
  | _, [] => []
  | prev, c :: rest =>
    if c ≠ prev then c :: dedupFrom c rest else dedupFrom prev rest

/-- The part of `parse_set_item` (src/shrx.rs:292-314) after the begin byte
has been read: `bgn` is the (possibly escaped) begin byte and `i` is the index
just past it (the Rust `i` after `i += 1`).  Returns `(begin, end, next)`.
Note the escaped-endpoint arm reads `rx[i + 3]` — in Rust `rx[i + 1]` after
`i` has already been advanced past the backslash onto the escaped byte — i.e.
one byte PAST the escaped character, and only `i + 2` was bounds-checked. -/
def parseSetAfterBegin (rx : List Nat) (bgn : Nat) (i : Nat) : PRes (Nat × Nat × Nat) :=
  match checkIndex rx i with
  | .err m => .err m
  | .panicked => .panicked
  | .ok _ =>
    match byteGet rx i with
    | none => .panicked
    | some ci =>
      if ci ≠ 45 then .ok (bgn, bgn, i)
      else
        match checkIndex rx (i + 1) with
        | .err m => .err m
        | .panicked => .panicked
        | .ok _ =>
          match byteGet rx (i + 1) with
          | none => .panicked
          | some cq =>
            if cq = 93 then .ok (bgn, bgn, i)
            else
              if cq = 92 then
                match checkIndex rx (i + 2) with
                | .err m => .err m
                | .panicked => .panicked
                | .ok _ =>
                  match byteGet rx (i + 3) with
                  | none => .panicked
                  | some e => .ok (bgn, e, i + 3)
              else .ok (bgn, cq, i + 2)

/-- Model of `parse_set_item` (src/shrx.rs:284-315): read the begin byte (one byte, or
the byte after a backslash), then hand over to `parseSetAfterBegin`. -/
def parseSetItem (rx : List Nat) (idx : Nat) : PRes (Nat × Nat × Nat) :=
  match byteGet rx idx with
  | none => .panicked
  | some b0 =>
    if b0 = 92 then
      match checkIndex rx (idx + 1) with
      | .err m => .err m
      | .panicked => .panicked
      | .ok _ =>
        match byteGet rx (idx + 1) with
        | none => .panicked
        | some b1 => parseSetAfterBegin rx b1 (idx + 2)
    else parseSetAfterBegin rx b0 (idx + 1)

/-- The bracket-item loop `while i < re.len() && re[i] != ']'` of
`parse_matcher` (src/shrx.rs:248-254), accumulating the expanded byte list.
Each `parse_set_item` advances `i` by at least one, so the loop iterates at
most `re.length` times; the caller passes fuel `re.length + 1`, which
therefore cannot run out (exhaustion is mapped to the panic outcome). -/
def parseSetLoop (re : List Nat) : Nat → List Nat → Nat → PRes (Nat × List Nat)
  | _, _, 0 => .panicked
  | i, set, fuel + 1 =>
    if i < re.length then
      match byteGet re i with
      | none => .panicked
      | some c =>
        if c = 93 then .ok (i, set)
        else
          match parseSetItem re i with
          | .ok (b, e, next) => parseSetLoop re next (set ++ rangeList b e) fuel
          | .err m => .err m
          | .panicked => .panicked
    else .ok (i, set)

/-- Model of `parse_matcher` (src/shrx.rs:227-282): `*`, `?`, `\x`, `[...]` or a
maximal literal run.  The backslash arm models `re[idx + 1..idx + 2]`, which
panics when the backslash is the last byte. -/
def parseMatcher (re : List Nat) (idx : Nat) : PRes (Matcher × Nat) :=
  match byteGet re idx with
  | none => .panicked
  | some c =>
    if c = 42 then .ok (.AnyString, idx + 1)
    else if c = 63 then .ok (.AnyChar, idx + 1)
    else if c = 92 then
      match sliceGet re (idx + 1) (idx + 2) with
      | none => .panicked
      | some v => .ok (.Literal v, idx + 2)
    else if c = 91 then
      match checkIndex re (idx + 1) with
      | .err m => .err m
      | .panicked => .panicked
      | .ok _ =>
        match byteGet re (idx + 1) with
        | none => .panicked
        | some c1 =>
          match parseSetLoop re (if c1 = 94 then idx + 2 else idx + 1) []
              (re.length + 1) with
          | .err m => .err m
          | .panicked => .panicked
          | .ok (i, set) =>
            match checkIndex re i with
            | .err m => .err m
            | .panicked => .panicked
            | .ok _ =>
              .ok (if c1 = 94 then .CharNotIn (dedupFrom 0 (sortBytes set))
                   else .CharIn (dedupFrom 0 (sortBytes set)), i + 1)
    else
      match sliceGet re idx (litEndGo (re.drop (idx + 1)) (idx + 1)) with
      | none => .panicked
      | some v => .ok (.Literal v, litEndGo (re.drop (idx + 1)) (idx + 1))

/-- The `while i < rx.len()` loop of `Pattern::new` (src/shrx.rs:109-114).
Each `parse_matcher` advances `i` by at least one, so the loop iterates at
most `re.length` times; `patternNew` passes fuel `re.length + 1`, which
therefore cannot run out. -/
def patternLoop (re : List Nat) : Nat → List Matcher → Nat → PRes (List Matcher)
  | _, _, 0 => .panicked
  | i, acc, fuel + 1 =>
    if i < re.length then
      match parseMatcher re i with
      | .ok (m, next) => patternLoop re next (acc ++ [m]) fuel
      | .err msg => .err msg
      | .panicked => .panicked
    else .ok acc

/-- Model of `Pattern::new` (src/shrx.rs:107-117). -/
def patternNew (re : List Nat) : PRes Pattern :=
  match patternLoop re 0 [] (re.length + 1) with
  | .ok l => .ok ⟨l⟩
  | .err m => .err m
  | .panicked => .panicked

/-- Count of capturing elements of a pattern: every element except `Literal`
(`AnyChar`, `CharIn`, `CharNotIn`, `AnyString`) pushes exactly one capture. -/
def countCapturing : List Matcher → Nat
  | [] => 0
  | .Literal _ :: rest => countCapturing rest
  | _ :: rest => countCapturing rest + 1

/-- Modelled from the spec's words (§4.2, §3): a full decomposition of the
input into consecutive spans, one per pattern element in order, with the whole
input consumed exactly when the element sequence is exhausted; `caps` lists,
in left-to-right pattern order, the capture stored for each capturing element
(the lossy UTF-8 decoding of its consumed span, which is what the evaluator
stores in the `String` group vector). -/
inductive MatchCaps : List Matcher → List Nat → List (List Nat) → Prop where
  | nil : MatchCaps [] [] []
  | lit (v : List Nat) (rest : List Matcher) (s : List Nat) (caps : List (List Nat)) :
      MatchCaps rest s caps → MatchCaps (.Literal v :: rest) (v ++ s) caps
  | anyChar (c : Nat) (rest : List Matcher) (s : List Nat) (caps : List (List Nat)) :
      MatchCaps rest s caps →
      MatchCaps (.AnyChar :: rest) (c :: s) (utf8Lossy [c] :: caps)
  | charInSet (c : Nat) (v : List Nat) (rest : List Matcher) (s : List Nat)
      (caps : List (List Nat)) :
      charIn v c = some true → MatchCaps rest s caps →
      MatchCaps (.CharIn v :: rest) (c :: s) (utf8Lossy [c] :: caps)
  | charNotInSet (c : Nat) (v : List Nat) (rest : List Matcher) (s : List Nat)
      (caps : List (List Nat)) :
      charIn v c = some false → MatchCaps rest s caps →
      MatchCaps (.CharNotIn v :: rest) (c :: s) (utf8Lossy [c] :: caps)
  | anyString (u : List Nat) (rest : List Matcher) (s : List Nat)
      (caps : List (List Nat)) :
      MatchCaps rest s caps →
      MatchCaps (.AnyString :: rest) (u ++ s) (utf8Lossy u :: caps)

end Shrx

namespace Shrx

theorem byteGet_mem : ∀ (s : List Nat) (i c : Nat), byteGet s i = some c → c ∈ s := by
  intro s
  induction s with
  | nil => intro i c h; simp [byteGet] at h
  | cons x t ih =>
    intro i c h
    cases i with
    | zero => simp [byteGet] at h; simp [h]
    | succ n => exact List.mem_cons_of_mem x (ih n c h)

theorem byteGet_lt : ∀ (s : List Nat) (i c : Nat), byteGet s i = some c → i < s.length := by
  intro s
  induction s with
  | nil => intro i c h; simp [byteGet] at h
  | cons x t ih =>
    intro i c h
    cases i with
    | zero => simp
    | succ n => have := ih n c h; simp; omega

theorem byteGet_of_lt : ∀ (s : List Nat) (i : Nat), i < s.length → ∃ c, byteGet s i = some c := by
  intro s
  induction s with
  | nil => intro i h; simp at h
  | cons x t ih =>
    intro i h
    cases i with
    | zero => exact ⟨x, rfl⟩
    | succ n => exact ih n (by simp at h; omega)

theorem mem_byteGet : ∀ (s : List Nat) (c : Nat), c ∈ s → ∃ i, byteGet s i = some c := by
  intro s
  induction s with
  | nil => intro c h; simp at h
  | cons x t ih =>
    intro c h
    rcases List.mem_cons.mp h with h | h
    · exact ⟨0, by simp [byteGet, h]⟩
    · obtain ⟨i, hi⟩ := ih c h
      exact ⟨i + 1, hi⟩

theorem byteGet_pairwise : ∀ (s : List Nat) (i j a b : Nat),
    s.Pairwise (· < ·) → i < j → byteGet s i = some a → byteGet s j = some b → a < b := by
  intro s
  induction s with
  | nil => intro i j a b _ _ ha; simp [byteGet] at ha
  | cons x t ih =>
    intro i j a b hp hij ha hb
    rcases List.pairwise_cons.mp hp with ⟨hx, ht⟩
    cases i with
    | zero =>
      cases j with
      | zero => omega
      | succ m =>
        simp [byteGet] at ha
        exact ha ▸ hx b (byteGet_mem t m b hb)
    | succ n =>
      cases j with
      | zero => omega
      | succ m => exact ih n m a b ht (by omega) ha hb

theorem drop_of_byteGet : ∀ (s : List Nat) (p c : Nat),
    byteGet s p = some c → s.drop p = c :: s.drop (p + 1) := by
  intro s
  induction s with
  | nil => intro p c h; simp [byteGet] at h
  | cons x t ih =>
    intro p c h
    cases p with
    | zero => simp [byteGet] at h; simp [h]
    | succ n => simpa using ih n c h

theorem byteGet_of_drop : ∀ (s : List Nat) (p c : Nat) (t : List Nat),
    s.drop p = c :: t → byteGet s p = some c := by
  intro s
  induction s with
  | nil => intro p c t h; simp at h
  | cons x u ih =>
    intro p c t h
    cases p with
    | zero => simp at h; simp [byteGet, h.1]
    | succ n => simpa [byteGet] using ih n c t (by simpa using h)

theorem sliceGet_decomp (s : List Nat) (a b : Nat) (u : List Nat)
    (h : sliceGet s a b = some u) : s.drop a = u ++ s.drop b := by
  unfold sliceGet at h
  split at h
  · rename_i hc
    have hu : u = (s.drop a).take (b - a) := by
      injection h with h2; exact h2.symm
    subst hu
    have h1 : (s.drop a).take (b - a) ++ (s.drop a).drop (b - a) = s.drop a :=
      List.take_append_drop _ _
    have h2 : (s.drop a).drop (b - a) = s.drop (a + (b - a)) := List.drop_drop _ _ _
    have h3 : a + (b - a) = b := by omega
    rw [h2, h3] at h1
    exact h1.symm
  · exact absurd h (by simp)

theorem sliceGet_length (s : List Nat) (a b : Nat) (u : List Nat)
    (h : sliceGet s a b = some u) : u.length = b - a := by
  unfold sliceGet at h
  split at h
  · rename_i hc
    have hu : u = (s.drop a).take (b - a) := by
      injection h with h2; exact h2.symm
    subst hu
    simp [List.length_take, List.length_drop]
    omega
  · exact absurd h (by simp)

theorem sliceGet_isSome (s : List Nat) (a b : Nat) (h1 : a ≤ b) (h2 : b ≤ s.length) :
    sliceGet s a b = some ((s.drop a).take (b - a)) := by
  unfold sliceGet
  simp [h1, h2]

theorem byteGroupsGet_eq_get? : ∀ (g : List (List Nat)) (n : Nat),
    byteGroupsGet g n = g.get? n := by
  intro g
  induction g with
  | nil => intro n; cases n <;> simp [byteGroupsGet]
  | cons x t ih => intro n; cases n <;> simp [byteGroupsGet, ih]

theorem groupGet_reverse (caps : List (List Nat)) (i : Nat) (h : i < caps.length) :
    groupGet caps.reverse i = caps.get? i := by
  unfold groupGet
  have hl : caps.reverse.length = caps.length := List.length_reverse _
  rw [hl]
  have hc : 1 + i ≤ caps.length := by omega
  simp only [hc, if_pos, byteGroupsGet_eq_get?]
  rw [List.get?_eq_getElem?, List.get?_eq_getElem?]
  rw [List.getElem?_reverse (by omega)]
  congr 1
  omega

end Shrx

namespace Shrx

theorem charInLoop_mem (set : List Nat) (c : Nat) : ∀ (fuel l r : Nat),
    charInLoop set c l r fuel = some true → c ∈ set := by
  intro fuel
  induction fuel with
  | zero => intro l r h; simp [charInLoop] at h
  | succ n ih =>
    intro l r h
    unfold charInLoop at h
    split at h
    · rcases hb : byteGet set (l + (r - l) / 2) with _ | sm
      · rw [hb] at h; simp at h
      · rw [hb] at h
        by_cases he : sm = c
        · exact he ▸ byteGet_mem _ _ _ hb
        · simp only [he, if_false] at h
          split at h
          · exact ih _ _ h
          · exact ih _ _ h
    · rcases hb : byteGet set l with _ | sl
      · rw [hb] at h; simp at h
      · rw [hb] at h
        simp at h
        exact h ▸ byteGet_mem _ _ _ hb

theorem charInLoop_found (set : List Nat) (c : Nat) (hp : set.Pairwise (· < ·)) :
    ∀ (fuel l r : Nat), l < r → r ≤ set.length → r - l ≤ fuel →
    (∃ i, l ≤ i ∧ i < r ∧ byteGet set i = some c) →
    charInLoop set c l r fuel = some true := by
  intro fuel
  induction fuel with
  | zero => intro l r h1 _ h3; omega
  | succ n ih =>
    intro l r h1 h2 h3 ⟨i, hil, hir, hic⟩
    unfold charInLoop
    by_cases hlr : l + 1 < r
    · have hd1 : 1 ≤ (r - l) / 2 := (Nat.le_div_iff_mul_le (by omega)).mpr (by omega)
      have hd2 : (r - l) / 2 < r - l := Nat.div_lt_self (by omega) (by omega)
      obtain ⟨sm, hsm⟩ := byteGet_of_lt set (l + (r - l) / 2) (by omega)
      simp only [hlr, if_pos, hsm]
      by_cases he : sm = c
      · simp [he]
      · simp only [he, if_false]
        by_cases hlt : sm < c
        · simp only [hlt, if_pos]
          apply ih (l + (r - l) / 2) r (by omega) h2 (by omega)
          refine ⟨i, ?_, hir, hic⟩
          by_cases hi2 : i < l + (r - l) / 2
          · exact absurd (byteGet_pairwise set i _ c sm hp hi2 hic hsm) (by omega)
          · by_cases hi3 : i = l + (r - l) / 2
            · rw [hi3] at hic
              rw [hic] at hsm
              injection hsm with h4
              omega
            · omega
        · simp only [hlt, if_false]
          apply ih l (l + (r - l) / 2) (by omega) (by omega) (by omega)
          refine ⟨i, hil, ?_, hic⟩
          by_cases hi2 : l + (r - l) / 2 < i
          · exact absurd (byteGet_pairwise set _ i sm c hp hi2 hsm hic) (by omega)
          · by_cases hi3 : i = l + (r - l) / 2
            · rw [hi3] at hic; rw [hic] at hsm
              injection hsm with h4
              omega
            · omega
    · have hi : i = l := by omega
      obtain ⟨sl, hsl⟩ := byteGet_of_lt set l (by omega)
      simp only [hlr, if_false, hsl]
      rw [hi] at hic
      rw [hic] at hsl
      injection hsl with h4
      simp [h4]

theorem charInLoop_total (set : List Nat) (c : Nat) : ∀ (fuel l r : Nat),
    l < r → r ≤ set.length → r - l ≤ fuel →
    ∃ b, charInLoop set c l r fuel = some b := by
  intro fuel
  induction fuel with
  | zero => intro l r h1 _ h3; omega
  | succ n ih =>
    intro l r h1 h2 h3
    unfold charInLoop
    by_cases hlr : l + 1 < r
    · have hd1 : 1 ≤ (r - l) / 2 := (Nat.le_div_iff_mul_le (by omega)).mpr (by omega)
      have hd2 : (r - l) / 2 < r - l := Nat.div_lt_self (by omega) (by omega)
      obtain ⟨sm, hsm⟩ := byteGet_of_lt set (l + (r - l) / 2) (by omega)
      simp only [hlr, if_pos, hsm]
      by_cases he : sm = c
      · exact ⟨true, by simp [he]⟩
      · simp only [he, if_false]
        by_cases hlt : sm < c
        · simp only [hlt, if_pos]
          exact ih (l + (r - l) / 2) r (by omega) h2 (by omega)
        · simp only [hlt, if_false]
          exact ih l (l + (r - l) / 2) (by omega) (by omega) (by omega)
    · obtain ⟨sl, hsl⟩ := byteGet_of_lt set l (by omega)
      simp only [hlr, if_false, hsl]
      exact ⟨decide (sl = c), rfl⟩

theorem charIn_total (set : List Nat) (c : Nat) : ∃ b, charIn set c = some b := by
  unfold charIn
  by_cases h : set.length = 0
  · simp [h]
  · simp only [h, if_false]
    exact charInLoop_total set c set.length 0 set.length (by omega) (by omega) (by omega)

theorem charIn_iff_mem (set : List Nat) (c : Nat) (hp : set.Pairwise (· < ·)) :
    charIn set c = some true ↔ c ∈ set := by
  constructor
  · intro h
    unfold charIn at h
    split at h
    · simp at h
    · exact charInLoop_mem set c _ _ _ h
  · intro h
    obtain ⟨i, hi⟩ := mem_byteGet set c h
    have hlt := byteGet_lt set i c hi
    unfold charIn
    have hne : ¬ set.length = 0 := by omega
    simp only [hne, if_false]
    exact charInLoop_found set c hp set.length 0 set.length (by omega) (by omega)
      (by omega) ⟨i, by omega, hlt, hi⟩

end Shrx

namespace Shrx

theorem checkOneChar_ok_some (next : Nat → PRes (Option (List (List Nat)))) (s : List Nat)
    (pos : Nat) (g : List (List Nat)) (h : checkOneChar next s pos = .ok (some g)) :
    ∃ c tail, byteGet s pos = some c ∧ next (pos + 1) = .ok (some tail) ∧
      g = tail ++ [utf8Lossy [c]] := by
  unfold checkOneChar at h
  split at h
  · rename_i tail hn
    split at h
    · exact absurd h (by simp)
    · rename_i u hs
      have hlt : pos < s.length := by
        unfold sliceGet at hs
        split at hs
        · omega
        · exact absurd hs (by simp)
      obtain ⟨c, hc⟩ := byteGet_of_lt s pos hlt
      have hu : u = [c] := by
        have h1 := sliceGet_decomp s pos (pos + 1) u hs
        have h2 := drop_of_byteGet s pos c hc
        have h3 := sliceGet_length s pos (pos + 1) u hs
        rcases u with _ | ⟨x, t⟩
        · simp at h3
        · rcases t with _ | ⟨y, t2⟩
          · rw [h2] at h1
            simp at h1
            simp [h1]
          · simp at h3
      refine ⟨c, tail, hc, hn, ?_⟩
      injection h with h4
      injection h4 with h5
      rw [← h5, hu]
  · exact absurd h (by simp)
  · exact absurd h (by simp)
  · exact absurd h (by simp)

theorem starLoop_ok_some (next : Nat → PRes (Option (List (List Nat)))) (s : List Nat)
    (pos : Nat) : ∀ (rem : List Nat) (p : Nat) (g : List (List Nat)),
    starLoop next s pos p rem = .ok (some g) →
    ∃ q m u, p ≤ q ∧ next q = .ok (some m) ∧ sliceGet s pos q = some u ∧
      g = m ++ [utf8Lossy u] := by
  intro rem
  induction rem with
  | nil =>
    intro p g h
    simp [starLoop] at h
  | cons x remTail ih =>
    intro p g h
    unfold starLoop at h
    split at h
    · rename_i m hn
      split at h
      · exact absurd h (by simp)
      · rename_i u hs
        injection h with h4
        injection h4 with h5
        exact ⟨p, m, u, le_refl p, hn, hs, h5.symm⟩
    · rename_i hn
      obtain ⟨q, m, u, hq, h1, h2, h3⟩ := ih (p + 1) g h
      exact ⟨q, m, u, by omega, h1, h2, h3⟩
    · exact absurd h (by simp)
    · exact absurd h (by simp)

theorem starLoop_total (next : Nat → PRes (Option (List (List Nat)))) (s : List Nat)
    (pos : Nat) (hnext : ∀ q, ∃ r, next q = .ok r) :
    ∀ (rem : List Nat) (p : Nat), rem = s.drop p → pos ≤ p →
    ∃ r, starLoop next s pos p rem = .ok r := by
  intro rem
  induction rem with
  | nil => intro p _ _; exact ⟨none, rfl⟩
  | cons x remTail ih =>
    intro p hrem hpos
    have hx : byteGet s p = some x := byteGet_of_drop s p x remTail hrem.symm
    have hlt : p < s.length := byteGet_lt s p x hx
    have htail : remTail = s.drop (p + 1) := by
      have := drop_of_byteGet s p x hx
      rw [← hrem] at this
      exact (List.cons_injective.eq_iff.mp this.symm).symm
    obtain ⟨r, hr⟩ := hnext p
    unfold starLoop
    rcases r with _ | m
    · rw [hr]
      exact ih (p + 1) htail (by omega)
    · rw [hr]
      rw [sliceGet_isSome s pos p (by omega) (by omega)]
      exact ⟨some (m ++ [utf8Lossy ((s.drop pos).take (p - pos))]), rfl⟩

theorem matchCaps_length : ∀ {l : List Matcher} {s : List Nat} {caps : List (List Nat)},
    MatchCaps l s caps → caps.length = countCapturing l := by
  intro l s caps h
  induction h with
  | nil => rfl
  | lit v rest s caps _ ih => simpa [countCapturing] using ih
  | anyChar c rest s caps _ ih => simpa [countCapturing] using ih
  | charInSet c v rest s caps _ _ ih => simpa [countCapturing] using ih
  | charNotInSet c v rest s caps _ _ ih => simpa [countCapturing] using ih
  | anyString u rest s caps _ ih => simpa [countCapturing] using ih

end Shrx

namespace Shrx

theorem checkImpl_sound (s : List Nat) : ∀ (l : List Matcher) (pos : Nat) (g : List (List Nat)),
    checkImpl s l pos = .ok (some g) →
    ∃ caps, MatchCaps l (s.drop pos) caps ∧ g = caps.reverse := by
  intro l
  induction l with
  | nil =>
    intro pos g h
    simp only [checkImpl] at h
    split at h
    · rename_i hpos
      injection h with h1
      injection h1 with h2
      refine ⟨[], ?_, by simp [← h2]⟩
      rw [List.drop_eq_nil_of_le (le_of_eq hpos.symm)]
      exact MatchCaps.nil
    · exact absurd h (by simp)
  | cons m rest ih =>
    cases m with
    | Literal v =>
      intro pos g h
      simp only [checkImpl] at h
      split at h
      · rename_i hc
        split at h
        · exact absurd h (by simp)
        · rename_i w hw
          split at h
          · rename_i hwv
            obtain ⟨caps, hmc, hg⟩ := ih (pos + v.length) g h
            refine ⟨caps, ?_, hg⟩
            have hd := sliceGet_decomp s pos (pos + v.length) w hw
            rw [hwv] at hd
            rw [hd]
            exact MatchCaps.lit v rest _ caps hmc
          · exact absurd h (by simp)
      · exact absurd h (by simp)
    | AnyChar =>
      intro pos g h
      simp only [checkImpl] at h
      split at h
      · obtain ⟨c, tail, hc, hn, hg⟩ := checkOneChar_ok_some _ s pos g h
        obtain ⟨caps, hmc, ht⟩ := ih (pos + 1) tail hn
        refine ⟨utf8Lossy [c] :: caps, ?_, ?_⟩
        · rw [drop_of_byteGet s pos c hc]
          exact MatchCaps.anyChar c rest _ caps hmc
        · rw [hg, ht]
          simp
      · exact absurd h (by simp)
    | CharIn v =>
      intro pos g h
      simp only [checkImpl] at h
      split at h
      · split at h
        · exact absurd h (by simp)
        · rename_i c0 hc0
          split at h
          · exact absurd h (by simp)
          · rename_i b hb
            split at h
            · rename_i hbt
              obtain ⟨c, tail, hc, hn, hg⟩ := checkOneChar_ok_some _ s pos g h
              obtain ⟨caps, hmc, ht⟩ := ih (pos + 1) tail hn
              have hcc : c = c0 := by
                rw [hc] at hc0
                injection hc0
              refine ⟨utf8Lossy [c] :: caps, ?_, ?_⟩
              · rw [drop_of_byteGet s pos c hc]
                apply MatchCaps.charInSet c v rest _ caps ?_ hmc
                rw [hcc, hb, hbt]
              · rw [hg, ht]
                simp
            · exact absurd h (by simp)
      · exact absurd h (by simp)
    | CharNotIn v =>
      intro pos g h
      simp only [checkImpl] at h
      split at h
      · split at h
        · exact absurd h (by simp)
        · rename_i c0 hc0
          split at h
          · exact absurd h (by simp)
          · rename_i b hb
            split at h
            · exact absurd h (by simp)
            · rename_i hbf
              obtain ⟨c, tail, hc, hn, hg⟩ := checkOneChar_ok_some _ s pos g h
              obtain ⟨caps, hmc, ht⟩ := ih (pos + 1) tail hn
              have hcc : c = c0 := by
                rw [hc] at hc0
                injection hc0
              refine ⟨utf8Lossy [c] :: caps, ?_, ?_⟩
              · rw [drop_of_byteGet s pos c hc]
                apply MatchCaps.charNotInSet c v rest _ caps ?_ hmc
                rw [hcc, hb]
                simp at hbf
                rw [hbf]
              · rw [hg, ht]
                simp
      · exact absurd h (by simp)
    | AnyString =>
      intro pos g h
      simp only [checkImpl] at h
      obtain ⟨q, m, u, hpq, hn, hs, hg⟩ := starLoop_ok_some _ s pos (s.drop pos) pos g h
      obtain ⟨caps, hmc, hm⟩ := ih q m hn
      refine ⟨utf8Lossy u :: caps, ?_, ?_⟩
      · rw [sliceGet_decomp s pos q u hs]
        exact MatchCaps.anyString u rest _ caps hmc
      · rw [hg, hm]
        simp

theorem checkOneChar_total (next : Nat → PRes (Option (List (List Nat)))) (s : List Nat)
    (pos : Nat) (hlt : pos < s.length) (hnext : ∃ r, next (pos + 1) = .ok r) :
    ∃ r, checkOneChar next s pos = .ok r := by
  obtain ⟨r, hr⟩ := hnext
  unfold checkOneChar
  rcases r with _ | tail
  · rw [hr]
    exact ⟨none, rfl⟩
  · rw [hr]
    rw [sliceGet_isSome s pos (pos + 1) (by omega) (by omega)]
    exact ⟨_, rfl⟩

theorem checkImpl_total (s : List Nat) : ∀ (l : List Matcher) (pos : Nat),
    ∃ r, checkImpl s l pos = .ok r := by
  intro l
  induction l with
  | nil => intro pos; exact ⟨_, rfl⟩
  | cons m rest ih =>
    cases m with
    | Literal v =>
      intro pos
      simp only [checkImpl]
      by_cases hc : pos + v.length ≤ s.length
      · rw [if_pos hc]
        split
        · rename_i hsl
          rw [sliceGet_isSome s pos (pos + v.length) (by omega) hc] at hsl
          exact absurd hsl (by simp)
        · split
          · exact ih _
          · exact ⟨none, rfl⟩
      · rw [if_neg hc]
        exact ⟨none, rfl⟩
    | AnyChar =>
      intro pos
      simp only [checkImpl]
      by_cases hc : pos < s.length
      · rw [if_pos hc]
        exact checkOneChar_total _ s pos hc (ih (pos + 1))
      · rw [if_neg hc]
        exact ⟨none, rfl⟩
    | CharIn v =>
      intro pos
      simp only [checkImpl]
      by_cases hc : pos < s.length
      · rw [if_pos hc]
        obtain ⟨c, hcb⟩ := byteGet_of_lt s pos hc
        split
        · rename_i hnone
          rw [hcb] at hnone
          exact absurd hnone (by simp)
        · rename_i c0 hc0
          obtain ⟨b, hb⟩ := charIn_total v c0
          split
          · rename_i hnone
            rw [hb] at hnone
            exact absurd hnone (by simp)
          · split
            · exact checkOneChar_total _ s pos hc (ih (pos + 1))
            · exact ⟨none, rfl⟩
      · rw [if_neg hc]
        exact ⟨none, rfl⟩
    | CharNotIn v =>
      intro pos
      simp only [checkImpl]
      by_cases hc : pos < s.length
      · rw [if_pos hc]
        obtain ⟨c, hcb⟩ := byteGet_of_lt s pos hc
        split
        · rename_i hnone
          rw [hcb] at hnone
          exact absurd hnone (by simp)
        · rename_i c0 hc0
          obtain ⟨b, hb⟩ := charIn_total v c0
          split
          · rename_i hnone
            rw [hb] at hnone
            exact absurd hnone (by simp)
          · split
            · exact ⟨none, rfl⟩
            · exact checkOneChar_total _ s pos hc (ih (pos + 1))
      · rw [if_neg hc]
        exact ⟨none, rfl⟩
    | AnyString =>
      intro pos
      simp only [checkImpl]
      exact starLoop_total _ s pos (fun q => ih q) (s.drop pos) pos rfl (le_refl pos)

end Shrx

namespace Shrx

/-- C1: the claim states that the `AnyString` candidate loop tries consumed
lengths up to and including the entire remaining input, so that a pattern
ending in `*` matches any input whose matched prefix leaves the star the rest.
The code's loop (src/shrx.rs:157) is `while p < s.len()`, which never tries
`p = s.len()`: an `AnyString` can never consume through the end of the input,
so `"a*"` (which compiles fine) matches neither `"ab"` nor `"a"`, and `"*"`
does not even match the empty input; a star strictly inside a pattern works
(last conjunct).  This theorem evaluates the code at those failing inputs. -/
theorem c1_trailing_star_never_matches :
    patternNew [97, 42] = .ok ⟨[.Literal [97], .AnyString]⟩ ∧
    check ⟨[.Literal [97], .AnyString]⟩ [97, 98] = .ok none ∧
    check ⟨[.Literal [97], .AnyString]⟩ [97] = .ok none ∧
    check ⟨[.AnyString]⟩ [] = .ok none ∧
    check ⟨[.Literal [97], .AnyString, .Literal [98]]⟩ [97, 99, 98] =
      .ok (some [[99]]) := by
  refine ⟨by decide, by decide, by decide, by decide, by decide⟩

/-- C2: the claim states that a pattern whose last byte is `\` compiles to a
ParseError ("unexpected end of string") and terminates with that error rather
than crashing.  The code (src/shrx.rs:235) slices `re[idx+1..idx+2]` without a
bounds check, so `Pattern::new("\\")` (byte `[92]`) panics with an
out-of-range slice instead of returning the error (first and third
conjuncts evaluate the code at such inputs); the second half of the claim —
`\` followed by one byte yields that byte as a one-byte `Literal` with no
special meaning — does hold (second conjunct: `"\*"` gives `Literal [42]`). -/
theorem c2_trailing_backslash_panics :
    patternNew [92] = .panicked ∧
    patternNew [92, 42] = .ok ⟨[.Literal [42]]⟩ ∧
    patternNew [97, 92] = .panicked := by
  refine ⟨by decide, by decide, by decide⟩

/-- C3: the claim states that in a range item `x-\y` the upper endpoint is the
byte immediately following the backslash (`[0-\e]` would denote the range
`'0'..'e'`, so `'e'` and `'^'` would match), and that a pattern truncated
right after the escaped byte is a ParseError.  The code (src/shrx.rs:309)
reads `rx[i + 1]` after `i` has already been advanced onto the escaped byte,
i.e. one byte past it: `"[0-\e]"` (bytes `[91,48,45,92,101,93]`) takes the
closing `']'` (93) as the endpoint, producing the set `rangeList 48 93` =
`'0'..']'`, in which `'e'` (101) and `'^'` (94) do not match; and the
truncated `"[a-\e"` panics (only `i + 2`, not `i + 3`, was bounds-checked)
instead of returning a ParseError. -/
theorem c3_escaped_range_endpoint_misread :
    patternNew [91, 48, 45, 92, 101, 93] = .ok ⟨[.CharIn (rangeList 48 93)]⟩ ∧
    check ⟨[.CharIn (rangeList 48 93)]⟩ [101] = .ok none ∧
    check ⟨[.CharIn (rangeList 48 93)]⟩ [94] = .ok none ∧
    patternNew [91, 97, 45, 92, 101] = .panicked := by
  refine ⟨by decide, by decide, by decide, by decide⟩

/-- C4: the claim states that the stored byte set is exactly the denoted set,
sorted and deduplicated, with no byte lost — in particular that a byte 0
listed in the bracket expression is a member.  The dedup loop
(src/shrx.rs:261-267) initialises `prev = 0`, so a leading 0 of the sorted
expansion is treated as a duplicate and dropped: `"[\x00]"` (bytes
`[91,0,93]`) compiles to the EMPTY set, and the NUL byte then fails to
match. -/
theorem c4_zero_byte_dropped_from_set :
    patternNew [91, 0, 93] = .ok ⟨[.CharIn []]⟩ ∧
    check ⟨[.CharIn []]⟩ [0] = .ok none := by
  refine ⟨by decide, by decide⟩

/-- C5 (counterexample): the claim as stated — each captured group is a copy
of the consumed input bytes, unchanged, including when a one-byte capture
falls inside a multi-byte encoded character — is false.  Matching `"??"`
against `"é"` (bytes `[195, 169]`) forces each `AnyChar` to consume exactly
one of the two bytes, yet both stored groups are `[239, 191, 189]` (U+FFFD),
which equals neither consumed span `[195]` nor `[169]`: the evaluator stores
`String::from_utf8_lossy` of the span, not the raw bytes (src/shrx.rs:180). -/
theorem c5_capture_counterexample :
    check ⟨[.AnyChar, .AnyChar]⟩ [195, 169] =
      .ok (some [[239, 191, 189], [239, 191, 189]]) ∧
    groupGet [[239, 191, 189], [239, 191, 189]] 0 = some [239, 191, 189] ∧
    ([239, 191, 189] : List Nat) ≠ [195] ∧
    ([239, 191, 189] : List Nat) ≠ [169] := by
  refine ⟨by decide, by decide, by decide, by decide⟩

/-- C5 (amended): on every successful match there is a decomposition of the
input into per-element consumed spans (`MatchCaps`) such that each captured
group is the lossy UTF-8 decoding (`String::from_utf8_lossy`, modelled by
`utf8Lossy`) of the span consumed by its capturing element; the internal
group vector holds them in reverse pattern order.  When a span is valid UTF-8
the capture equals the span's bytes; a one-byte capture inside a multi-byte
encoded character becomes U+FFFD. -/
theorem c5_captures_are_lossy_spans (p : Pattern) (s : List Nat)
    (g : List (List Nat)) (h : check p s = .ok (some g)) :
    ∃ caps, MatchCaps p.pattern s caps ∧ g = caps.reverse := by
  have h2 := checkImpl_sound s p.pattern 0 g h
  simpa using h2

theorem c5_captures_are_lossy_spans_witness :
    check ⟨[.AnyChar]⟩ [97] = .ok (some [[97]]) ∧
    ∃ caps, MatchCaps [.AnyChar] [97] caps ∧ [[97]] = caps.reverse :=
  ⟨by decide, c5_captures_are_lossy_spans ⟨[.AnyChar]⟩ [97] [[97]] (by decide)⟩

/-- C6: matching is anchored on both ends — `check` returns `Some` only if
the whole input decomposes into consecutive spans consumed by the pattern's
elements in order with the pattern simultaneously exhausted (`MatchCaps`,
modelled from the spec's words); and the empty pattern matches exactly the
empty input. -/
theorem c6_anchored_both_ends :
    (∀ (p : Pattern) (s : List Nat) (g : List (List Nat)),
      check p s = .ok (some g) → ∃ caps, MatchCaps p.pattern s caps) ∧
    (∀ s : List Nat, check ⟨[]⟩ s = .ok (some []) ↔ s = []) := by
  constructor
  · intro p s g h
    obtain ⟨caps, hmc, _⟩ := checkImpl_sound s p.pattern 0 g h
    exact ⟨caps, by simpa using hmc⟩
  · intro s
    constructor
    · intro h
      simp only [check, checkImpl] at h
      split at h
      · rename_i hp
        exact List.eq_nil_of_length_eq_zero hp.symm
      · exact absurd h (by simp)
    · intro h
      rw [h]
      decide

theorem c6_anchored_both_ends_witness :
    check ⟨[.Literal [97]]⟩ [97] = .ok (some []) ∧
    ∃ caps, MatchCaps [.Literal [97]] [97] caps :=
  ⟨by decide, c6_anchored_both_ends.1 ⟨[.Literal [97]]⟩ [97] [] (by decide)⟩

/-- C7: on every successful match the number of stored groups equals the
number of capturing elements (everything except `Literal`), and the accessor
`group(i)` (which reads `groups[len - 1 - i]`) returns the capture of the
i-th capturing element in left-to-right pattern order, regardless of the
reverse order in which the recursion pushed them. -/
theorem c7_group_count_and_order (p : Pattern) (s : List Nat)
    (g : List (List Nat)) (h : check p s = .ok (some g)) :
    g.length = countCapturing p.pattern ∧
    ∃ caps, MatchCaps p.pattern s caps ∧ caps.length = countCapturing p.pattern ∧
      ∀ i, i < g.length → groupGet g i = caps.get? i := by
  have h2 := checkImpl_sound s p.pattern 0 g h
  obtain ⟨caps, hmc0, hg⟩ := h2
  have hmc : MatchCaps p.pattern s caps := by simpa using hmc0
  have hlen := matchCaps_length hmc
  constructor
  · rw [hg, List.length_reverse]
    exact hlen
  · refine ⟨caps, hmc, hlen, ?_⟩
    intro i hi
    rw [hg, List.length_reverse] at hi
    rw [hg]
    exact groupGet_reverse caps i hi

theorem c7_group_count_and_order_witness :
    check ⟨[.CharIn [97]]⟩ [97] = .ok (some [[97]]) ∧
    ([[97]] : List (List Nat)).length = countCapturing [.CharIn [97]] :=
  ⟨by decide, (c7_group_count_and_order ⟨[.CharIn [97]]⟩ [97] [[97]] (by decide)).1⟩

/-- C8: for every sorted array of distinct bytes the binary-search helper
`char_in_impl` returns true exactly on the members; it returns false for
every byte on the empty set; and a negated CharSet element with the empty set
therefore matches every single byte. -/
theorem c8_binary_search_membership :
    (∀ (set : List Nat) (c : Nat), set.Pairwise (· < ·) →
      (charIn set c = some true ↔ c ∈ set)) ∧
    (∀ c : Nat, charIn [] c = some false) ∧
    (∀ b : Nat, check ⟨[.CharNotIn []]⟩ [b] = .ok (some [utf8Lossy [b]])) := by
  refine ⟨fun set c hp => charIn_iff_mem set c hp, fun c => rfl, fun b => rfl⟩

theorem c8_binary_search_membership_witness :
    ([1, 2, 3] : List Nat).Pairwise (· < ·) ∧ charIn [1, 2, 3] 2 = some true :=
  ⟨by decide, (c8_binary_search_membership.1 [1, 2, 3] 2 (by decide)).mpr (by decide)⟩

/-- C9: for every pattern value and every input byte sequence of any content,
evaluation terminates (the embedding is a total function) and produces `.ok`:
either a match with captures or no match — never the `panicked` outcome that
models an out-of-bounds access, because every consuming transition checks the
remaining length before reading, and never an error. -/
theorem c9_no_panic_no_error (p : Pattern) (s : List Nat) :
    ∃ r : Option (List (List Nat)), check p s = .ok r :=
  checkImpl_total s p.pattern 0

/-- C10: `"[]"` compiles to a non-negated empty CharSet (the `]` right after
`[` is not a literal member and the empty set is not a syntax error), and the
resulting element matches no input at all; `"[^]"` compiles to a negated
empty CharSet, which matches any single byte but never the empty remainder
(and never more than one byte, by anchoring). -/
theorem c10_empty_bracket_expressions :
    patternNew [91, 93] = .ok ⟨[.CharIn []]⟩ ∧
    (∀ s : List Nat, check ⟨[.CharIn []]⟩ s = .ok none) ∧
    patternNew [91, 94, 93] = .ok ⟨[.CharNotIn []]⟩ ∧
    (∀ c : Nat, check ⟨[.CharNotIn []]⟩ [c] = .ok (some [utf8Lossy [c]])) ∧
    check ⟨[.CharNotIn []]⟩ [] = .ok none ∧
    (∀ (c d : Nat) (t : List Nat), check ⟨[.CharNotIn []]⟩ (c :: d :: t) = .ok none) := by
  refine ⟨by decide, ?_, by decide, fun c => rfl, by decide, ?_⟩
  · intro s
    rcases s with _ | ⟨c, t⟩
    · rfl
    · have h0 : 0 < (c :: t).length := by simp
      simp only [check, checkImpl, if_pos h0, byteGet, charIn]
      simp
  · intro c d t
    have h0 : 0 < (c :: d :: t).length := by simp
    have h1 : ¬(1 = (c :: d :: t).length) := by simp
    simp only [check, checkImpl, if_pos h0, byteGet, charIn, checkOneChar, if_neg h1]
    simp

end Shrx
